import Mathlib

/-!
Shallow embedding of the gravitational N-body simulator `nbody-E.py` and a
verification of its natural-language specification.

The Python program stores each particle as a tuple
`(mass, position, velocity, acceleration, previous_acceleration)` where the
vector entries are 3-element float lists, and a `Cluster` is a Python list of
such tuples.  Floating-point numbers are idealised as real numbers; the places
where Python float arithmetic raises `ZeroDivisionError` (division by an exact
zero) are modelled separately by `Except`-valued variants of the kernels.
-/

noncomputable section

/-- A 3-component real vector, modelling a Python 3-element float list. -/
abbrev Vec3 : Type := ℝ × ℝ × ℝ

/-- One point mass, with named fields for the five components of the source's
particle tuple (`previous_acceleration` is `oldAcc`). -/
@[ext]
structure Particle where
  mass : ℝ
  pos : Vec3
  vel : Vec3
  acc : Vec3
  oldAcc : Vec3

instance : Inhabited Particle := ⟨⟨0, 0, 0, 0, 0⟩⟩

/-- The source's `Particle(mass, px, py, pz, vx, vy, vz)` constructor: both
acceleration fields start at the zero vector. -/
def mkParticle (mass px py pz vx vy vz : ℝ) : Particle :=
  ⟨mass, (px, py, pz), (vx, vy, vz), (0, 0, 0), (0, 0, 0)⟩

/-- The source's `Cluster` (a Python list of particles). -/
abbrev Cluster : Type := List Particle

/-- Mass of the `k`-th particle (junk default out of range). -/
def massOf (cl : Cluster) (k : ℕ) : ℝ := (cl.getD k default).mass

/-- Position of the `k`-th particle (junk default out of range). -/
def posOf (cl : Cluster) (k : ℕ) : Vec3 := (cl.getD k default).pos

/-- Velocity of the `k`-th particle (junk default out of range). -/
def velOf (cl : Cluster) (k : ℕ) : Vec3 := (cl.getD k default).vel

/-- The list of index pairs `(i, j)` with `i < j < n`, in the order the
source's double loop `for i ...: for j in range(i+1, n)` visits them. -/
def pairs (n : ℕ) : List (ℕ × ℕ) :=
  (List.range n).flatMap fun i => (List.range' (i + 1) (n - (i + 1))).map fun j => (i, j)

/-- In-place update of the `k`-th particle's acceleration, modelling the
source's component assignments to the shared acceleration list. -/
def modifyAcc : Cluster → ℕ → (Vec3 → Vec3) → Cluster
  | [], _, _ => []
  | p :: ps, 0, f => { p with acc := f p.acc } :: ps
  | p :: ps, k + 1, f => p :: modifyAcc ps k f

/-- The first loop of `accelerate`: copy `acceleration` into
`previous_acceleration` and reset `acceleration` to the zero vector. -/
def swapReset (p : Particle) : Particle := { p with oldAcc := p.acc, acc := 0 }

/-- Body of the pairwise loop of `accelerate` for one index pair `(i, j)`:
`delta = position[i] - position[j]`, `distance_cube = (delta.delta) ** 1.5`,
then `a[i] -= (mass[j]/distance_cube) * delta` and
`a[j] += (mass[i]/distance_cube) * delta`, component-wise in the source. -/
def applyPair (cl : Cluster) (ij : ℕ × ℕ) : Cluster :=
  let p1 := cl.getD ij.1 default
  let p2 := cl.getD ij.2 default
  let dx := p1.pos.1 - p2.pos.1
  let dy := p1.pos.2.1 - p2.pos.2.1
  let dz := p1.pos.2.2 - p2.pos.2.2
  let distance_cube := (dx * dx + dy * dy + dz * dz) ^ (1.5 : ℝ)
  modifyAcc (modifyAcc cl ij.1 fun a => a - (p2.mass / distance_cube) • (dx, dy, dz))
    ij.2 fun a => a + (p1.mass / distance_cube) • (dx, dy, dz)

/-- The source's `Cluster.accelerate` force kernel: the swap/reset loop
followed by the pairwise accumulation over all `i < j`. -/
def accelerate (cl : Cluster) : Cluster :=
  (pairs cl.length).foldl applyPair (cl.map swapReset)

/-- First loop of the source's `Cluster.step`: position drift
`r += dt * v + half_dt_square * a` with `half_dt_square = 0.5 * dt * dt`. -/
def drift (dt : ℝ) (p : Particle) : Particle :=
  { p with pos := p.pos + dt • p.vel + (0.5 * dt * dt) • p.acc }

/-- Third loop of the source's `Cluster.step`: velocity kick
`v += half_dt * (a + old_a)` with `half_dt = 0.5 * dt`. -/
def kick (dt : ℝ) (p : Particle) : Particle :=
  { p with vel := p.vel + (0.5 * dt) • (p.acc + p.oldAcc) }

/-- The source's `Cluster.step(dt)`: drift all positions, recompute
accelerations once, then kick all velocities. -/
def step (cl : Cluster) (dt : ℝ) : Cluster :=
  (accelerate (cl.map (drift dt))).map (kick dt)

/-- `itertools.combinations(l, 2)` in the source's iteration order. -/
def combos2 {α : Type} : List α → List (α × α)
  | [] => []
  | x :: xs => (xs.map fun y => (x, y)) ++ combos2 xs

/-- The kinetic-energy loop of the source's `Cluster.get_energy`. -/
def keLoop (cl : Cluster) : ℝ :=
  cl.foldl
    (fun ke p =>
      ke + 0.5 * p.mass * (p.vel.1 * p.vel.1 + p.vel.2.1 * p.vel.2.1 + p.vel.2.2 * p.vel.2.2))
    0

/-- Squared Euclidean distance `dx*dx + dy*dy + dz*dz` between two particle
positions, as computed component-wise in `get_energy`. -/
def sqDist (p1 p2 : Particle) : ℝ :=
  (p1.pos.1 - p2.pos.1) * (p1.pos.1 - p2.pos.1) +
    (p1.pos.2.1 - p2.pos.2.1) * (p1.pos.2.1 - p2.pos.2.1) +
    (p1.pos.2.2 - p2.pos.2.2) * (p1.pos.2.2 - p2.pos.2.2)

/-- The potential-energy contribution of one particle pair in
`Cluster.get_energy`: `(mass1 * mass2) / sqrt(dx*dx + dy*dy + dz*dz)`. -/
def pePair (q : Particle × Particle) : ℝ :=
  q.1.mass * q.2.mass / Real.sqrt (sqDist q.1 q.2)

/-- The potential-energy loop of the source's `Cluster.get_energy`:
`pe -= pePair q` over `combinations(self, 2)`. -/
def peLoop (cl : Cluster) : ℝ :=
  (combos2 cl).foldl (fun pe q => pe - pePair q) 0

/-- The source's `Cluster.get_energy`, a pure (non-mutating) function of the
cluster: kinetic plus (negative) potential energy. -/
def get_energy (cl : Cluster) : ℝ := keLoop cl + peLoop cl

open scoped Classical

/-! ### Spec-side definitions

The following definitions transcribe the specification's wording (pair sums
starting from zero, velocity-Verlet phases, energy sums with plain Euclidean
distance) so the source-level loops above can be proved equal to them. -/

/-- Squared Euclidean norm `v.v` of a vector (the spec's `|v|²`). -/
def normSq (v : Vec3) : ℝ := v.1 * v.1 + v.2.1 * v.2.1 + v.2.2 * v.2.2

/-- Euclidean norm of a vector (the spec's plain `|v|`). -/
def enorm (v : Vec3) : ℝ := Real.sqrt (normSq v)

/-- The spec's `delta = position[i] - position[j]`. -/
def deltaOf (cl : Cluster) (i j : ℕ) : Vec3 := posOf cl i - posOf cl j

/-- The spec's `distance_cubed = (delta.delta) ^ 1.5`. -/
def distCubeOf (cl : Cluster) (i j : ℕ) : ℝ := normSq (deltaOf cl i j) ^ (1.5 : ℝ)

/-- The net contribution of the unordered pair `(i, j)` to particle `k`'s
acceleration, as the spec states it: `a[i] -= (mass[j]/distance_cubed)*delta`
and `a[j] += (mass[i]/distance_cubed)*delta`. -/
def contrib (cl : Cluster) (k : ℕ) (ij : ℕ × ℕ) : Vec3 :=
  (if k = ij.1 then -((massOf cl ij.2 / distCubeOf cl ij.1 ij.2) • deltaOf cl ij.1 ij.2) else 0)
    + (if k = ij.2 then (massOf cl ij.1 / distCubeOf cl ij.1 ij.2) • deltaOf cl ij.1 ij.2 else 0)

/-- The finite set of unordered index pairs `(i, j)` with `i < j < n`. -/
def pairsFinset (n : ℕ) : Finset (ℕ × ℕ) :=
  (Finset.range n ×ˢ Finset.range n).filter fun ij => ij.1 < ij.2

/-- Spec-side acceleration of particle `k`: the sum, over every unordered
pair `(i, j)` with `i < j`, of that pair's contribution to `k`, accumulated
starting from the zero vector. -/
def specAcc (cl : Cluster) (k : ℕ) : Vec3 :=
  ∑ ij ∈ pairsFinset cl.length, contrib cl k ij

/-- Spec-side position update: `position += dt*velocity + 0.5*dt²*acceleration`
(the spec writes the coefficient as `0.5 * dt²`). -/
def driftSpec (dt : ℝ) (p : Particle) : Particle :=
  { p with pos := p.pos + dt • p.vel + (0.5 * dt ^ 2) • p.acc }

/-- Spec-side `step(dt)`: the three velocity-Verlet phases in order — position
update with the entry accelerations, one force-kernel invocation, velocity
update with the average of the new acceleration and the entry (pre-update)
acceleration of the same particle. -/
def specStep (cl : Cluster) (dt : ℝ) : Cluster :=
  let afterForce := accelerate (cl.map (driftSpec dt))
  List.zipWith (fun p q => { q with vel := q.vel + (0.5 * dt) • (q.acc + p.acc) }) cl afterForce

/-- Spec-side kinetic energy: sum over particles of `0.5 * mass * |velocity|²`. -/
def specKE (cl : Cluster) : ℝ :=
  ∑ k ∈ Finset.range cl.length, 0.5 * massOf cl k * normSq (velOf cl k)

/-- Spec-side (positive magnitude of the) potential energy: sum over unordered
pairs `i < j` of `(mass[i]*mass[j]) / |position[i] - position[j]|`. -/
def specPE (cl : Cluster) : ℝ :=
  ∑ ij ∈ pairsFinset cl.length, massOf cl ij.1 * massOf cl ij.2 / enorm (deltaOf cl ij.1 ij.2)

/-- Spec-side total energy: kinetic sum minus pairwise potential sum. -/
def specEnergy (cl : Cluster) : ℝ := specKE cl - specPE cl

/-! ### Python float-division semantics

Python raises `ZeroDivisionError` when a float is divided by exact zero (it
does not return an IEEE infinity).  The `Except`-valued kernels below model
the source faithfully at that level: each division checks its denominator. -/

/-- `applyPair` under Python division semantics: `mass / distance_cube` raises
(returns `Except.error`) when `distance_cube` is exactly zero. -/
def applyPairE (cl : Cluster) (ij : ℕ × ℕ) : Except Unit Cluster :=
  let p1 := cl.getD ij.1 default
  let p2 := cl.getD ij.2 default
  let dx := p1.pos.1 - p2.pos.1
  let dy := p1.pos.2.1 - p2.pos.2.1
  let dz := p1.pos.2.2 - p2.pos.2.2
  let distance_cube := (dx * dx + dy * dy + dz * dz) ^ (1.5 : ℝ)
  if distance_cube = 0 then Except.error () else
    Except.ok
      (modifyAcc (modifyAcc cl ij.1 fun a => a - (p2.mass / distance_cube) • (dx, dy, dz))
        ij.2 fun a => a + (p1.mass / distance_cube) • (dx, dy, dz))

/-- `accelerate` under Python division semantics: the first zero
`distance_cube` encountered aborts the whole call with `ZeroDivisionError`. -/
def accelerateE (cl : Cluster) : Except Unit Cluster :=
  (pairs cl.length).foldlM applyPairE (cl.map swapReset)

/-- One potential-energy accumulation under Python division semantics:
`(mass1*mass2) / sqrt(...)` raises when the distance is exactly zero. -/
def peStepE (s : ℝ) (q : Particle × Particle) : Except Unit ℝ :=
  let d := Real.sqrt (sqDist q.1 q.2)
  if d = 0 then Except.error () else Except.ok (s - q.1.mass * q.2.mass / d)

/-- `get_energy` under Python division semantics. -/
def get_energyE (cl : Cluster) : Except Unit ℝ :=
  ((combos2 cl).foldlM peStepE 0).map fun pe => keLoop cl + pe

/-! ### Input loading and command-line handling

A whitespace token of an input line (or of `sys.argv`) either parses as a
float or does not; only that distinction matters to the control flow. -/

/-- One whitespace-separated text token: either it parses as a float with the
given value, or it does not parse. -/
inductive Token where
  | num : ℝ → Token
  | other : Token

/-- The list comprehension `[float(x) for x in tokens]`: `none` models the
`ValueError` raised at the first token that does not parse as a float. -/
def parseFloats : List Token → Option (List ℝ)
  | [] => some []
  | Token.num x :: ts => (parseFloats ts).map fun vs => x :: vs
  | Token.other :: _ => none

/-- One iteration of the loader loop on one line's token list:
`Particle(*[float(x) for x in line.split()[1:]])` guarded by
`except TypeError: pass`.  `Except.error` models the uncaught `ValueError`
from `float`; `Except.ok none` models a caught `TypeError` (wrong argument
count), which skips the line; `Except.ok (some p)` appends particle `p`. -/
def loadLine (toks : List Token) : Except Unit (Option Particle) :=
  match parseFloats (toks.drop 1) with
  | none => Except.error ()
  | some [m, px, py, pz, vx, vy, vz] => Except.ok (some (mkParticle m px py pz vx vy vz))
  | some _ => Except.ok none

/-- The driver's end-time argument handling:
`try: time_end = float(sys.argv[2]) except IndexError: time_end = 10.`.
A missing `argv[2]` (IndexError) is caught and defaults to `10.0`; a present
but unparseable `argv[2]` raises an uncaught `ValueError`. -/
def parseEndTime (argv : List Token) : Except Unit ℝ :=
  match (argv[2]?) with
  | none => Except.ok 10
  | some (Token.num x) => Except.ok x
  | some Token.other => Except.error ()

/-! ### The driver loop -/

/-- The fixed internal time step `time_step = 0.001`. -/
def timeStep : ℝ := 0.001

/-- Python's `int()` applied to a float: truncation toward zero. -/
def pyInt (x : ℝ) : ℤ := if 0 ≤ x then ⌊x⌋ else ⌈x⌉

/-- The number of iterations of `for step in range(1, int(time_end/time_step + 1))`,
therefore the number of `step(dt)` invocations the driver performs. -/
def stepCount (time_end : ℝ) : ℕ := (pyInt (time_end / timeStep + 1) - 1).toNat

/-- The loop indices `1, 2, ..., int(time_end/time_step + 1) - 1` visited by
the driver's `range(1, ...)`. -/
def stepIndices (time_end : ℝ) : List ℕ := List.range' 1 (stepCount time_end)

/-- The driver's mutable bookkeeping: the cluster plus the three energy
variables initialised by `old_energy = energy0 = energy = -0.25`. -/
structure RunState where
  cluster : Cluster
  old_energy : ℝ
  energy0 : ℝ
  energy : ℝ

/-- One iteration of the driver loop at loop index `k`: advance the cluster by
one `step`, and every 100 steps sample `get_energy`, print, and update
`old_energy` and `energy` (but never `energy0`). -/
def doStep (dt : ℝ) (s : RunState) (k : ℕ) : RunState :=
  let c2 := step s.cluster dt
  if k % 100 = 0 then
    let e := get_energy c2
    { cluster := c2, old_energy := e, energy0 := s.energy0, energy := e }
  else
    { s with cluster := c2 }

/-- The driver: initial `cluster.accelerate()`, then the stepping loop. -/
def runLoop (cl : Cluster) (time_end : ℝ) : RunState :=
  (stepIndices time_end).foldl (doStep timeStep) ⟨accelerate cl, -0.25, -0.25, -0.25⟩

/-- The value the driver prints as `Final dE/E`:
`(energy - energy0) / energy0` after the loop. -/
def finalDrift (cl : Cluster) (time_end : ℝ) : ℝ :=
  ((runLoop cl time_end).energy - (runLoop cl time_end).energy0) / (runLoop cl time_end).energy0

/-- The cluster after `n` invocations of `step` from state `cl`. -/
def stepN (cl : Cluster) (dt : ℝ) : ℕ → Cluster
  | 0 => cl
  | k + 1 => step (stepN cl dt k) dt

/-- The loop indices at which the driver samples `get_energy` (every 100th). -/
def sampleSteps (time_end : ℝ) : List ℕ :=
  (stepIndices time_end).filter fun k => k % 100 = 0

/-- The energy samples of a run, in order: `get_energy` of the cluster after
`k` steps (post initial `accelerate`), for each sampled loop index `k`. -/
def samples (cl : Cluster) (time_end : ℝ) : List ℝ :=
  (sampleSteps time_end).map fun k => get_energy (stepN (accelerate cl) timeStep k)

/-- Relative drift between the first and last entries of a sample list
(`(E_last - E_first) / E_first`), the quantity the spec claims is printed. -/
def firstLastDrift (l : List ℝ) : ℝ :=
  ((l.getLast?).getD 0 - (l.head?).getD 0) / (l.head?).getD 0

/-- The energy samples produced while folding the driver loop over an
arbitrary index list, starting from a given cluster (proof auxiliary). -/
def sampledE (dt : ℝ) : Cluster → List ℕ → List ℝ
  | _, [] => []
  | cl, k :: ks =>
    (if k % 100 = 0 then [get_energy (step cl dt)] else []) ++ sampledE dt (step cl dt) ks

/-! ### Concrete inputs used by witnesses and counterexamples -/

/-- Two unit masses at distinct positions `(0,0,0)` and `(1,0,0)`, at rest. -/
def twoBody : Cluster := [mkParticle 1 0 0 0 0 0 0, mkParticle 1 1 0 0 0 0 0]

/-- Two particles that coincide exactly in position. -/
def coincident : Cluster := [mkParticle 1 0 0 0 0 0 0, mkParticle 2 0 0 0 0 0 0]

/-- A single particle of mass 1 with velocity `(1,0,0)`: no pair forces act,
so its energy is exactly `0.5` forever. -/
def lonely : Cluster := [mkParticle 1 0 0 0 1 0 0]

end

/-! ### Basic lemmas about the embedding -/

theorem length_modifyAcc (cl : Cluster) (i : ℕ) (f : Vec3 → Vec3) :
    (modifyAcc cl i f).length = cl.length := by
  induction cl generalizing i with
  | nil => rfl
  | cons p ps ih =>
    cases i with
    | zero => rfl
    | succ k => simp [modifyAcc, ih]

theorem getElem?_modifyAcc (cl : Cluster) (i k : ℕ) (f : Vec3 → Vec3) :
    (modifyAcc cl i f)[k]? =
      if k = i then (cl[k]?).map (fun p => { p with acc := f p.acc }) else cl[k]? := by
  induction cl generalizing i k with
  | nil => simp [modifyAcc]
  | cons p ps ih =>
    cases i with
    | zero =>
      cases k with
      | zero => simp [modifyAcc]
      | succ m => simp [modifyAcc]
    | succ n =>
      cases k with
      | zero => simp [modifyAcc]
      | succ m => simpa [modifyAcc] using ih n m

theorem massOf_eq {cl : Cluster} {k : ℕ} {p : Particle} (h : cl[k]? = some p) :
    massOf cl k = p.mass := by
  simp [massOf, List.getD_eq_getElem?_getD, h]

theorem posOf_eq {cl : Cluster} {k : ℕ} {p : Particle} (h : cl[k]? = some p) :
    posOf cl k = p.pos := by
  simp [posOf, List.getD_eq_getElem?_getD, h]

theorem velOf_eq {cl : Cluster} {k : ℕ} {p : Particle} (h : cl[k]? = some p) :
    velOf cl k = p.vel := by
  simp [velOf, List.getD_eq_getElem?_getD, h]

theorem mem_pairs {n i j : ℕ} : (i, j) ∈ pairs n ↔ i < j ∧ j < n := by
  simp only [pairs, List.mem_flatMap, List.mem_map, List.mem_range, List.mem_range',
    Prod.mk.injEq]
  constructor
  · rintro ⟨a, ha, b, ⟨t, ht, rfl⟩, rfl, rfl⟩
    omega
  · rintro ⟨hij, hjn⟩
    exact ⟨i, by omega, j, ⟨j - (i + 1), by omega, by omega⟩, rfl, rfl⟩

theorem nodup_pairs (n : ℕ) : (pairs n).Nodup := by
  rw [pairs, List.nodup_flatMap]
  refine ⟨fun i _ => ?_, ?_⟩
  · exact (List.nodup_range' _ _).map (fun a b h => by simpa using h)
  · refine List.Pairwise.imp ?_ (List.pairwise_lt_range n)
    intro a b hab x hxa hxb
    simp only [List.mem_map] at hxa hxb
    obtain ⟨j1, _, rfl⟩ := hxa
    obtain ⟨j2, _, h2⟩ := hxb
    exact absurd (congrArg Prod.fst h2.symm) (by simp; omega)

theorem toFinset_pairs (n : ℕ) : (pairs n).toFinset = pairsFinset n := by
  ext ⟨i, j⟩
  simp only [List.mem_toFinset, mem_pairs, pairsFinset, Finset.mem_filter,
    Finset.mem_product, Finset.mem_range]
  omega

theorem sum_pairs_eq {M : Type} [AddCommMonoid M] (n : ℕ) (f : ℕ × ℕ → M) :
    ((pairs n).map f).sum = ∑ ij ∈ pairsFinset n, f ij := by
  rw [← toFinset_pairs, List.sum_toFinset f (nodup_pairs n)]

theorem massOf_modifyAcc (cl : Cluster) (i k : ℕ) (f : Vec3 → Vec3) :
    massOf (modifyAcc cl i f) k = massOf cl k := by
  rw [massOf, massOf, List.getD_eq_getElem?_getD, List.getD_eq_getElem?_getD,
    getElem?_modifyAcc]
  split <;> cases (cl[k]?) <;> rfl

theorem posOf_modifyAcc (cl : Cluster) (i k : ℕ) (f : Vec3 → Vec3) :
    posOf (modifyAcc cl i f) k = posOf cl k := by
  rw [posOf, posOf, List.getD_eq_getElem?_getD, List.getD_eq_getElem?_getD,
    getElem?_modifyAcc]
  split <;> cases (cl[k]?) <;> rfl

theorem length_applyPair (cl : Cluster) (ij : ℕ × ℕ) :
    (applyPair cl ij).length = cl.length := by
  simp [applyPair, length_modifyAcc]

theorem massOf_applyPair (cl : Cluster) (ij : ℕ × ℕ) (k : ℕ) :
    massOf (applyPair cl ij) k = massOf cl k := by
  simp [applyPair, massOf_modifyAcc]

theorem posOf_applyPair (cl : Cluster) (ij : ℕ × ℕ) (k : ℕ) :
    posOf (applyPair cl ij) k = posOf cl k := by
  simp [applyPair, posOf_modifyAcc]

theorem contrib_congr {cl cl2 : Cluster} (hm : ∀ k, massOf cl2 k = massOf cl k)
    (hp : ∀ k, posOf cl2 k = posOf cl k) (k : ℕ) (ij : ℕ × ℕ) :
    contrib cl2 k ij = contrib cl k ij := by
  simp [contrib, deltaOf, distCubeOf, hm, hp]

theorem applyPair_getElem? {cl : Cluster} {i j : ℕ} (hij : i ≠ j) (k : ℕ) :
    (applyPair cl (i, j))[k]? =
      (cl[k]?).map fun p => { p with acc := p.acc + contrib cl k (i, j) } := by
  simp only [applyPair]
  rw [getElem?_modifyAcc, getElem?_modifyAcc]
  rcases eq_or_ne k i with rfl | hki
  · rw [if_neg hij, if_pos rfl]
    cases hck : (cl[k]?) with
    | none => rfl
    | some p =>
      simp only [Option.map_some']
      refine congrArg some ?_
      ext <;>
        simp [contrib, hij, massOf, posOf, deltaOf, distCubeOf, normSq,
          List.getD_eq_getElem?_getD, hck, Prod.fst_sub, Prod.snd_sub, Prod.smul_fst,
          Prod.smul_snd, Prod.fst_add, Prod.snd_add, Prod.fst_neg, Prod.snd_neg] <;>
        ring
  · rcases eq_or_ne k j with rfl | hkj
    · rw [if_pos rfl, if_neg hki]
      cases hck : (cl[k]?) with
      | none => rfl
      | some p =>
        simp only [Option.map_some']
        refine congrArg some ?_
        ext <;>
          simp [contrib, hki, Ne.symm hij, massOf, posOf, deltaOf, distCubeOf, normSq,
            List.getD_eq_getElem?_getD, hck, Prod.fst_sub, Prod.snd_sub, Prod.smul_fst,
            Prod.smul_snd, Prod.fst_add, Prod.snd_add, Prod.fst_neg, Prod.snd_neg]
    · rw [if_neg hkj, if_neg hki]
      cases hck : (cl[k]?) with
      | none => rfl
      | some p =>
        simp only [Option.map_some']
        refine congrArg some ?_
        ext <;> simp [contrib, hki, hkj]

theorem length_foldl_applyPair (L : List (ℕ × ℕ)) (cl : Cluster) :
    (L.foldl applyPair cl).length = cl.length := by
  induction L generalizing cl with
  | nil => rfl
  | cons q L ih => rw [List.foldl_cons, ih, length_applyPair]

theorem foldl_applyPair (L : List (ℕ × ℕ)) (cl : Cluster)
    (hL : ∀ q ∈ L, q.1 ≠ q.2) (k : ℕ) :
    (L.foldl applyPair cl)[k]? =
      (cl[k]?).map fun p => { p with acc := p.acc + (L.map (contrib cl k)).sum } := by
  induction L generalizing cl with
  | nil => cases hck : (cl[k]?) <;> simp [hck]
  | cons q L ih =>
    obtain ⟨q1, q2⟩ := q
    have hq : q1 ≠ q2 := hL (q1, q2) (List.mem_cons_self _ _)
    rw [List.foldl_cons,
      ih (applyPair cl (q1, q2)) (fun r hr => hL r (List.mem_cons_of_mem _ hr)),
      applyPair_getElem? hq k, Option.map_map]
    have hc : ∀ r, contrib (applyPair cl (q1, q2)) k r = contrib cl k r :=
      contrib_congr (fun k2 => massOf_applyPair cl (q1, q2) k2)
        (fun k2 => posOf_applyPair cl (q1, q2) k2) k
    rw [show contrib (applyPair cl (q1, q2)) k = contrib cl k from funext hc]
    cases hck : (cl[k]?) with
    | none => rfl
    | some p =>
      simp only [Option.map_some', Function.comp_apply]
      refine congrArg some ?_
      simp [add_assoc]

theorem length_accelerate (cl : Cluster) : (accelerate cl).length = cl.length := by
  rw [accelerate, length_foldl_applyPair, List.length_map]

theorem massOf_map_swapReset (cl : Cluster) (k : ℕ) :
    massOf (cl.map swapReset) k = massOf cl k := by
  rw [massOf, massOf, List.getD_eq_getElem?_getD, List.getD_eq_getElem?_getD,
    List.getElem?_map]
  cases (cl[k]?) <;> rfl

theorem posOf_map_swapReset (cl : Cluster) (k : ℕ) :
    posOf (cl.map swapReset) k = posOf cl k := by
  rw [posOf, posOf, List.getD_eq_getElem?_getD, List.getD_eq_getElem?_getD,
    List.getElem?_map]
  cases (cl[k]?) <;> rfl

/-- C1: after a call to the force kernel `accelerate`, every particle's
`previous_acceleration` equals the acceleration it held at entry, and its
`acceleration` equals the sum, over every unordered pair `(i, j)` with
`i < j`, of the contributions `a[i] -= (mass[j]/(delta.delta)^1.5) * delta`
and `a[j] += (mass[i]/(delta.delta)^1.5) * delta` with
`delta = position[i] - position[j]`, accumulated starting from the zero
vector (the sum `specAcc`). -/
theorem accelerate_correct (cl : Cluster) (k : ℕ) :
    (accelerate cl)[k]? =
      (cl[k]?).map fun p => { p with oldAcc := p.acc, acc := specAcc cl k } := by
  have hne : ∀ q ∈ pairs cl.length, q.1 ≠ q.2 := by
    rintro ⟨i, j⟩ hq
    exact Nat.ne_of_lt (mem_pairs.1 hq).1
  rw [accelerate, foldl_applyPair _ _ hne k, List.getElem?_map, Option.map_map]
  have hc : ∀ r, contrib (cl.map swapReset) k r = contrib cl k r :=
    contrib_congr (fun k2 => massOf_map_swapReset cl k2)
      (fun k2 => posOf_map_swapReset cl k2) k
  cases hck : (cl[k]?) with
  | none => rfl
  | some p =>
    simp only [Option.map_some', Function.comp_apply]
    refine congrArg some ?_
    simp only [hc, sum_pairs_eq]
    simp [swapReset, specAcc]

theorem driftSpec_eq_drift (dt : ℝ) (p : Particle) : driftSpec dt p = drift dt p := by
  have h : (0.5 * dt ^ 2 : ℝ) = 0.5 * dt * dt := by ring
  rw [driftSpec, drift, h]

/-- C2: `step(dt)` performs exactly the three velocity-Verlet phases in order:
positions are updated with `dt * velocity + 0.5 * dt² * acceleration` using
the entry accelerations, the force kernel is invoked once, and then each
velocity is updated with `0.5 * dt * (acceleration_new + acceleration_old)`
where `acceleration_old` is the pre-update acceleration that the force kernel
moved into `previous_acceleration`. -/
theorem step_correct (cl : Cluster) (dt : ℝ) : step cl dt = specStep cl dt := by
  have hfun : driftSpec dt = drift dt := funext (driftSpec_eq_drift dt)
  apply List.ext_getElem?
  intro k
  simp only [step, specStep, hfun, List.getElem?_zipWith, List.getElem?_map,
    accelerate_correct, Option.map_map]
  cases hck : (cl[k]?) with
  | none => rfl
  | some p => rfl

theorem massOf_accelerate (cl : Cluster) (k : ℕ) :
    massOf (accelerate cl) k = massOf cl k := by
  rw [massOf, massOf, List.getD_eq_getElem?_getD, List.getD_eq_getElem?_getD,
    accelerate_correct]
  cases (cl[k]?) <;> rfl

theorem posOf_accelerate (cl : Cluster) (k : ℕ) :
    posOf (accelerate cl) k = posOf cl k := by
  rw [posOf, posOf, List.getD_eq_getElem?_getD, List.getD_eq_getElem?_getD,
    accelerate_correct]
  cases (cl[k]?) <;> rfl

theorem specAcc_accelerate (cl : Cluster) (k : ℕ) :
    specAcc (accelerate cl) k = specAcc cl k := by
  rw [specAcc, specAcc, length_accelerate]
  exact Finset.sum_congr rfl fun ij _ =>
    contrib_congr (massOf_accelerate cl) (posOf_accelerate cl) k ij

/-- C9: on a cluster with pairwise-distinct positions, calling the force
kernel twice with no intervening position change leaves every particle's
acceleration identical to what the first call produced, and its
`previous_acceleration` equal to the first call's acceleration. -/
theorem accelerate_idempotent (cl : Cluster)
    (hd : ∀ i j, i < j → j < cl.length → posOf cl i ≠ posOf cl j) (k : ℕ) :
    ((accelerate (accelerate cl))[k]?).map Particle.acc
        = ((accelerate cl)[k]?).map Particle.acc ∧
      ((accelerate (accelerate cl))[k]?).map Particle.oldAcc
        = ((accelerate cl)[k]?).map Particle.acc := by
  have h1 := accelerate_correct cl k
  have h2 := accelerate_correct (accelerate cl) k
  rw [h2, h1, specAcc_accelerate, Option.map_map, Option.map_map, Option.map_map]
  constructor <;> (cases (cl[k]?) <;> rfl)

/-- Witness for C9 at the concrete two-body cluster. -/
theorem accelerate_idempotent_witness :
    ((accelerate (accelerate twoBody))[0]?).map Particle.acc
        = ((accelerate twoBody)[0]?).map Particle.acc ∧
      ((accelerate (accelerate twoBody))[0]?).map Particle.oldAcc
        = ((accelerate twoBody)[0]?).map Particle.acc :=
  accelerate_idempotent twoBody
    (by
      intro i j hij hj h
      have hj2 : j < 2 := by simpa [twoBody] using hj
      have hj1 : j = 1 := by omega
      have hi0 : i = 0 := by omega
      subst hj1; subst hi0
      simp [twoBody, posOf, mkParticle, Prod.ext_iff] at h)
    0

theorem foldl_add_eq {α : Type} (f : α → ℝ) (l : List α) (s : ℝ) :
    l.foldl (fun a x => a + f x) s = s + (l.map f).sum := by
  induction l generalizing s with
  | nil => simp
  | cons x xs ih => simp [List.foldl_cons, ih, add_assoc]

theorem foldl_sub_eq {α : Type} (f : α → ℝ) (l : List α) (s : ℝ) :
    l.foldl (fun a x => a - f x) s = s - (l.map f).sum := by
  induction l generalizing s with
  | nil => simp
  | cons x xs ih => simp [List.foldl_cons, ih, sub_sub]

theorem sum_map_getD (f : Particle → ℝ) (cl : Cluster) :
    (cl.map f).sum = ∑ k ∈ Finset.range cl.length, f (cl.getD k default) := by
  induction cl with
  | nil => simp
  | cons p ps ih =>
    rw [List.map_cons, List.sum_cons, List.length_cons, Finset.sum_range_succ']
    simp only [List.getD_cons_succ, List.getD_cons_zero, ih]
    exact add_comm _ _

theorem range'_shift (s l : ℕ) : (List.range' s l).map Nat.succ = List.range' (s + 1) l := by
  induction l generalizing s with
  | zero => rfl
  | succ n ih => rw [List.range'_succ, List.map_cons, ih, List.range'_succ]

theorem pairs_succ (n : ℕ) :
    pairs (n + 1) =
      ((List.range' 1 n).map fun j => (0, j)) ++
        (pairs n).map fun ij => (ij.1 + 1, ij.2 + 1) := by
  rw [pairs, pairs, List.range_succ_eq_map, List.flatMap_cons, List.flatMap_map,
    List.map_flatMap]
  refine congrArg₂ (· ++ ·) ?_ ?_
  · norm_num
  · refine congrArg (List.range n).flatMap (funext fun a => ?_)
    rw [List.map_map]
    simp only [Nat.succ_eq_add_one]
    have h1 : n + 1 - (a + 1 + 1) = n - (a + 1) := by omega
    rw [h1, ← range'_shift, List.map_map]
    rfl

theorem map_eq_map_range {β : Type} (f : Particle → β) (l : List Particle) :
    l.map f = (List.range l.length).map fun k => f (l.getD k default) := by
  induction l with
  | nil => rfl
  | cons p ps ih =>
    rw [List.map_cons, List.length_cons, List.range_succ_eq_map, List.map_cons, ih,
      List.map_map]
    simp [List.getD_cons_succ, List.getD_cons_zero, Function.comp]

theorem combos2_eq (cl : Cluster) :
    combos2 cl =
      (pairs cl.length).map fun ij => (cl.getD ij.1 default, cl.getD ij.2 default) := by
  induction cl with
  | nil => rfl
  | cons p ps ih =>
    show (ps.map fun y => (p, y)) ++ combos2 ps = _
    rw [List.length_cons, pairs_succ, List.map_append, ih]
    refine congrArg₂ (· ++ ·) ?_ ?_
    · rw [map_eq_map_range (fun y => (p, y)) ps, ← range'_shift 0 ps.length,
        List.map_map, List.map_map]
      rw [show List.range' 0 ps.length = List.range ps.length from
        (List.range_eq_range' ps.length).symm]
      refine congrArg (List.map · (List.range ps.length)) (funext fun k => ?_)
      simp [List.getD_cons_succ, List.getD_cons_zero, Function.comp]
    · rw [List.map_map]
      refine congrArg (List.map · (pairs ps.length)) (funext fun ij => ?_)
      simp [List.getD_cons_succ, Function.comp]

theorem sqDist_eq (p1 p2 : Particle) : sqDist p1 p2 = normSq (p1.pos - p2.pos) := by
  simp [sqDist, normSq, Prod.fst_sub, Prod.snd_sub]

theorem keLoop_eq (cl : Cluster) : keLoop cl = specKE cl := by
  rw [keLoop, foldl_add_eq, sum_map_getD, zero_add, specKE]
  exact Finset.sum_congr rfl fun k _ => by simp [massOf, velOf, normSq]

theorem peLoop_eq (cl : Cluster) : peLoop cl = -specPE cl := by
  rw [peLoop, foldl_sub_eq, zero_sub, combos2_eq, List.map_map, specPE]
  refine congrArg Neg.neg ?_
  rw [sum_pairs_eq]
  exact Finset.sum_congr rfl fun ij _ => by
    simp [pePair, massOf, posOf, deltaOf, enorm, sqDist_eq, Function.comp]

/-- C3: on a cluster with pairwise-distinct positions, `get_energy` returns
the sum over all particles of `0.5 * mass * |velocity|²` minus the sum over
every unordered pair `(i, j)` with `i < j` of
`(mass[i] * mass[j]) / |position[i] - position[j]|` with the plain Euclidean
distance in the denominator; the embedding is a pure function of the cluster,
mutating no particle field. -/
theorem get_energy_correct (cl : Cluster)
    (hd : ∀ i j, i < j → j < cl.length → posOf cl i ≠ posOf cl j) :
    get_energy cl = specEnergy cl := by
  rw [get_energy, keLoop_eq, peLoop_eq, specEnergy, sub_eq_add_neg]

/-- Witness for C3 at the concrete two-body cluster. -/
theorem get_energy_correct_witness :
    (∀ i j, i < j → j < twoBody.length → posOf twoBody i ≠ posOf twoBody j) ∧
      get_energy twoBody = specEnergy twoBody := by
  have hd : ∀ i j, i < j → j < twoBody.length → posOf twoBody i ≠ posOf twoBody j := by
    intro i j hij hj h
    have hj2 : j < 2 := by simpa [twoBody] using hj
    have hj1 : j = 1 := by omega
    have hi0 : i = 0 := by omega
    subst hj1; subst hi0
    simp [twoBody, posOf, mkParticle, Prod.ext_iff] at h
  exact ⟨hd, get_energy_correct twoBody hd⟩

theorem applyPairE_ok {cl cl2 : Cluster} {ij : ℕ × ℕ}
    (h : applyPairE cl ij = Except.ok cl2) :
    cl2.length = cl.length ∧ ∀ k, posOf cl2 k = posOf cl k := by
  simp only [applyPairE] at h
  split at h
  · exact absurd h (by simp)
  · simp only [Except.ok.injEq] at h
    subst h
    exact ⟨by rw [length_modifyAcc, length_modifyAcc],
      fun k => by rw [posOf_modifyAcc, posOf_modifyAcc]⟩

theorem applyPairE_error {cl : Cluster} {i j : ℕ} (h : posOf cl i = posOf cl j) :
    applyPairE cl (i, j) = Except.error () := by
  have hp : (cl.getD i default).pos = (cl.getD j default).pos := h
  have hC : (((cl.getD i default).pos.1 - (cl.getD j default).pos.1) *
        ((cl.getD i default).pos.1 - (cl.getD j default).pos.1) +
      ((cl.getD i default).pos.2.1 - (cl.getD j default).pos.2.1) *
        ((cl.getD i default).pos.2.1 - (cl.getD j default).pos.2.1) +
      ((cl.getD i default).pos.2.2 - (cl.getD j default).pos.2.2) *
        ((cl.getD i default).pos.2.2 - (cl.getD j default).pos.2.2)) ^ (1.5 : ℝ) = 0 := by
    have hbase : (((cl.getD i default).pos.1 - (cl.getD j default).pos.1) *
          ((cl.getD i default).pos.1 - (cl.getD j default).pos.1) +
        ((cl.getD i default).pos.2.1 - (cl.getD j default).pos.2.1) *
          ((cl.getD i default).pos.2.1 - (cl.getD j default).pos.2.1) +
        ((cl.getD i default).pos.2.2 - (cl.getD j default).pos.2.2) *
          ((cl.getD i default).pos.2.2 - (cl.getD j default).pos.2.2)) = 0 := by
      rw [hp]; ring
    rw [hbase]
    exact Real.zero_rpow (by norm_num)
  simp only [applyPairE]
  rw [if_pos hC]

theorem foldlM_applyPairE_error {i j : ℕ} :
    ∀ (L : List (ℕ × ℕ)) (cl : Cluster), (i, j) ∈ L → posOf cl i = posOf cl j →
      L.foldlM applyPairE cl = Except.error () := by
  intro L
  induction L with
  | nil => intro cl h _; exact absurd h (List.not_mem_nil _)
  | cons q L ih =>
    intro cl hmem hpos
    rw [List.foldlM_cons]
    rcases List.mem_cons.1 hmem with rfl | hq
    · rw [applyPairE_error hpos]; rfl
    · cases hA : applyPairE cl q with
      | error e => rfl
      | ok cl2 =>
        show List.foldlM applyPairE cl2 L = Except.error ()
        obtain ⟨hlen, hpos2⟩ := applyPairE_ok hA
        exact ih cl2 hq (by rw [hpos2, hpos2]; exact hpos)

/-- C4 (amended): on any cluster in which two particles (indices `i < j`,
`j` in range) coincide exactly in position, the force kernel under Python
float semantics raises an uncaught `ZeroDivisionError` (modelled as
`Except.error`) — the run aborts with an error instead of producing a
non-finite acceleration value. -/
theorem accelerateE_singular (cl : Cluster) (i j : ℕ) (hij : i < j) (hj : j < cl.length)
    (hpos : posOf cl i = posOf cl j) : accelerateE cl = Except.error () := by
  rw [accelerateE]
  refine foldlM_applyPairE_error (pairs cl.length) (cl.map swapReset)
    (mem_pairs.2 ⟨hij, hj⟩) ?_
  rw [posOf_map_swapReset, posOf_map_swapReset]
  exact hpos

/-- Witness for the amended C4 at two coincident particles. -/
theorem accelerateE_singular_witness :
    (0 < 1 ∧ 1 < coincident.length ∧ posOf coincident 0 = posOf coincident 1) ∧
      accelerateE coincident = Except.error () := by
  have h1 : 1 < coincident.length := by simp [coincident]
  have h2 : posOf coincident 0 = posOf coincident 1 := by
    simp [coincident, posOf, mkParticle]
  exact ⟨⟨Nat.zero_lt_one, h1, h2⟩,
    accelerateE_singular coincident 0 1 Nat.zero_lt_one h1 h2⟩

/-- C4 counterexample to the claim as stated: at the concrete coincident
two-particle cluster the force kernel signals an error (Python raises
`ZeroDivisionError` on float division by exact zero); it does not return an
acceleration value, finite or not, and nothing is silently corrupted. -/
theorem accelerateE_coincident : accelerateE coincident = Except.error () := by
  rw [accelerateE]
  refine foldlM_applyPairE_error (pairs coincident.length) (coincident.map swapReset)
    (mem_pairs.2 ⟨Nat.zero_lt_one, by simp [coincident]⟩) ?_
  rw [posOf_map_swapReset, posOf_map_swapReset]
  simp [coincident, posOf, mkParticle]

/-- C10: `get_energy` also fails on the singular configuration: with two
particles at exactly the same position, the potential-energy division by the
zero Euclidean distance raises `ZeroDivisionError` (modelled as
`Except.error`) instead of returning a value. -/
theorem get_energyE_coincident : get_energyE coincident = Except.error () := by
  have hsq : sqDist (mkParticle 1 0 0 0 0 0 0) (mkParticle 2 0 0 0 0 0 0) = 0 := by
    simp [sqDist, mkParticle]
  have hcombos : combos2 coincident =
      [(mkParticle 1 0 0 0 0 0 0, mkParticle 2 0 0 0 0 0 0)] := rfl
  rw [get_energyE, hcombos, List.foldlM_cons]
  simp [peStepE, hsq, Real.sqrt_zero, Except.map]

theorem getLast?_cons_getD (l : List ℝ) : ∀ x d : ℝ,
    ((x :: l).getLast?).getD d = (l.getLast?).getD x := by
  induction l with
  | nil => intro x d; rfl
  | cons y ys ih =>
    intro x d
    simp only [List.getLast?_cons_cons, ih]

theorem stepN_shift (cl : Cluster) (dt : ℝ) : ∀ n : ℕ,
    stepN (step cl dt) dt n = stepN cl dt (n + 1) := by
  intro n
  induction n with
  | zero => rfl
  | succ m ih => rw [stepN, ih]; rfl

theorem foldl_step_eq_stepN (dt : ℝ) (L : List ℕ) :
    ∀ cl : Cluster, L.foldl (fun c2 _ => step c2 dt) cl = stepN cl dt L.length := by
  induction L with
  | nil => intro cl; rfl
  | cons k ks ih =>
    intro cl
    rw [List.foldl_cons, ih, stepN_shift, List.length_cons]

theorem foldl_doStep (dt : ℝ) (L : List ℕ) :
    ∀ s : RunState,
      (L.foldl (doStep dt) s).cluster = L.foldl (fun c2 _ => step c2 dt) s.cluster ∧
        (L.foldl (doStep dt) s).energy0 = s.energy0 ∧
        (L.foldl (doStep dt) s).energy = (sampledE dt s.cluster L).getLast?.getD s.energy := by
  induction L with
  | nil => intro s; exact ⟨rfl, rfl, rfl⟩
  | cons k ks ih =>
    intro s
    rw [List.foldl_cons, List.foldl_cons]
    by_cases hk : k % 100 = 0
    · have hds : doStep dt s k =
          ⟨step s.cluster dt, get_energy (step s.cluster dt), s.energy0,
            get_energy (step s.cluster dt)⟩ := by
        simp [doStep, hk]
      rw [hds]
      obtain ⟨h1, h2, h3⟩ := ih ⟨step s.cluster dt, get_energy (step s.cluster dt),
        s.energy0, get_energy (step s.cluster dt)⟩
      refine ⟨h1, h2, ?_⟩
      rw [h3]
      simp only [sampledE, hk, if_true, List.singleton_append, getLast?_cons_getD]
    · have hds : doStep dt s k = { s with cluster := step s.cluster dt } := by
        simp [doStep, hk]
      rw [hds]
      obtain ⟨h1, h2, h3⟩ := ih { s with cluster := step s.cluster dt }
      refine ⟨h1, h2, ?_⟩
      rw [h3]
      simp only [sampledE, hk, if_false, List.nil_append]

theorem sampledE_range' (dt : ℝ) (cl : Cluster) : ∀ m s : ℕ,
    sampledE dt (stepN cl dt s) (List.range' (s + 1) m) =
      ((List.range' (s + 1) m).filter fun k => k % 100 = 0).map
        fun k => get_energy (stepN cl dt k) := by
  intro m
  induction m with
  | zero => intro s; rfl
  | succ m ih =>
    intro s
    rw [List.range'_succ]
    have hstep : step (stepN cl dt s) dt = stepN cl dt (s + 1) := rfl
    by_cases hk : (s + 1) % 100 = 0
    · simp only [sampledE, hstep, hk, if_true, List.singleton_append,
        List.filter_cons, decide_eq_true_eq, List.map_cons]
      rw [show s + 1 + 1 = (s + 1) + 1 from rfl, ih (s + 1)]
    · simp only [sampledE, hstep, hk, if_false, List.nil_append, List.filter_cons,
        decide_eq_true_eq]
      rw [show s + 1 + 1 = (s + 1) + 1 from rfl, ih (s + 1)]

theorem samples_eq (cl : Cluster) (t : ℝ) :
    sampledE timeStep (accelerate cl) (stepIndices t) = samples cl t := by
  rw [samples, sampleSteps, stepIndices]
  exact sampledE_range' timeStep (accelerate cl) (stepCount t) 0

/-- C5 (amended): the value printed as the final relative energy drift is
`(E_last - E0) / E0` where `E0` is the hard-coded initializer `-0.25` (the
variable `energy0` is never updated to any sample), and `E_last` is the most
recent 100-step energy sample (`-0.25` again when no sample was taken). -/
theorem finalDrift_eq (cl : Cluster) (t : ℝ) :
    finalDrift cl t = ((samples cl t).getLast?.getD (-0.25) - (-0.25)) / (-0.25) := by
  obtain ⟨h1, h2, h3⟩ :=
    foldl_doStep timeStep (stepIndices t) ⟨accelerate cl, -0.25, -0.25, -0.25⟩
  rw [finalDrift, runLoop, h2, h3, samples_eq]

theorem accelerate_singleton (p : Particle) : accelerate [p] = [swapReset p] := by
  have h : pairs ([p] : Cluster).length = [] := rfl
  rw [accelerate, h]
  rfl

theorem lonely_energy (r : Vec3) :
    get_energy [(⟨1, r, (1, 0, 0), 0, 0⟩ : Particle)] = 1 / 2 := by
  rw [get_energy, keLoop, peLoop]
  show (0 : ℝ) + 0.5 * 1 * (1 * 1 + 0 * 0 + 0 * 0) + 0 = 1 / 2
  norm_num

theorem step_lonely (r : Vec3) (dt : ℝ) :
    ∃ r2 : Vec3, step [(⟨1, r, (1, 0, 0), 0, 0⟩ : Particle)] dt =
      [(⟨1, r2, (1, 0, 0), 0, 0⟩ : Particle)] := by
  refine ⟨r + dt • ((1 : ℝ), (0 : ℝ), (0 : ℝ)) + (0.5 * dt * dt) • (0 : Vec3), ?_⟩
  rw [step]
  have h1 : (([(⟨1, r, (1, 0, 0), 0, 0⟩ : Particle)] : Cluster)).map (drift dt) =
      [drift dt ⟨1, r, (1, 0, 0), 0, 0⟩] := rfl
  rw [h1, accelerate_singleton]
  simp [drift, swapReset, kick]

theorem stepN_lonely : ∀ n : ℕ, ∃ r : Vec3,
    stepN (accelerate lonely) timeStep n = [(⟨1, r, (1, 0, 0), 0, 0⟩ : Particle)] := by
  intro n
  induction n with
  | zero =>
    refine ⟨0, ?_⟩
    show accelerate lonely = _
    rw [show (lonely : Cluster) = [mkParticle 1 0 0 0 1 0 0] from rfl, accelerate_singleton]
    rfl
  | succ m ih =>
    obtain ⟨r, hr⟩ := ih
    rw [stepN, hr]
    exact step_lonely r timeStep

theorem stepCount_tenth : stepCount (0.1 : ℝ) = 100 := by
  rw [stepCount, timeStep, pyInt]
  rw [show (0.1 : ℝ) / 0.001 + 1 = ((101 : ℕ) : ℝ) by norm_num]
  rw [if_pos (by norm_num : (0 : ℝ) ≤ ((101 : ℕ) : ℝ)), Int.floor_natCast]
  rfl

theorem samples_lonely : samples lonely (0.1 : ℝ) = [1 / 2] := by
  have hss : sampleSteps (0.1 : ℝ) = [100] := by
    rw [sampleSteps, stepIndices, stepCount_tenth]
    decide
  rw [samples, hss]
  obtain ⟨r, hr⟩ := stepN_lonely 100
  show [get_energy (stepN (accelerate lonely) timeStep 100)] = [1 / 2]
  rw [hr, lonely_energy]

theorem finalDrift_lonely : finalDrift lonely (0.1 : ℝ) = -3 := by
  obtain ⟨h1, h2, h3⟩ :=
    foldl_doStep timeStep (stepIndices (0.1 : ℝ)) ⟨accelerate lonely, -0.25, -0.25, -0.25⟩
  rw [finalDrift, runLoop, h2, h3, samples_eq, samples_lonely]
  norm_num

/-- C5 counterexample: for the single-particle cluster run to end time 0.1
(100 steps, one sample), every energy sample equals 1/2, so the drift between
the first and last sample is 0; but the program prints
`(1/2 - (-0.25)) / (-0.25) = -3`, because its baseline is the hard-coded
initializer -0.25, not the first post-warmup sample. -/
theorem finalDrift_not_firstLast :
    finalDrift lonely (0.1 : ℝ) = -3 ∧ firstLastDrift (samples lonely (0.1 : ℝ)) = 0 ∧
      finalDrift lonely (0.1 : ℝ) ≠ firstLastDrift (samples lonely (0.1 : ℝ)) := by
  have h2 : firstLastDrift (samples lonely (0.1 : ℝ)) = 0 := by
    rw [samples_lonely, firstLastDrift]
    norm_num
  exact ⟨finalDrift_lonely, h2, by rw [finalDrift_lonely, h2]; norm_num⟩

/-- C7 (amended): the driver applies `step` once per loop index, so the
number of step invocations is the length of `range(1, int(t/dt + 1))`, which
equals `t/dt` truncated to an integer — without the claim's extra `+ 1`. -/
theorem step_invocations (cl : Cluster) (t : ℝ) (ht : 0 ≤ t) :
    (runLoop cl t).cluster = stepN (accelerate cl) timeStep ((stepIndices t).length) ∧
      (stepIndices t).length = (pyInt (t / timeStep)).toNat := by
  constructor
  · obtain ⟨h1, h2, h3⟩ :=
      foldl_doStep timeStep (stepIndices t) ⟨accelerate cl, -0.25, -0.25, -0.25⟩
    rw [runLoop, h1]
    exact foldl_step_eq_stepN timeStep (stepIndices t) (accelerate cl)
  · rw [stepIndices, List.length_range', stepCount]
    have hx : (0 : ℝ) ≤ t / timeStep := div_nonneg ht (by rw [timeStep]; norm_num)
    rw [pyInt, pyInt, if_pos hx, if_pos (by linarith : (0 : ℝ) ≤ t / timeStep + 1),
      Int.floor_add_one]
    omega

/-- Witness for the amended C7 at the default end time 10. -/
theorem step_invocations_witness :
    (0 : ℝ) ≤ 10 ∧
      ((runLoop lonely 10).cluster
          = stepN (accelerate lonely) timeStep ((stepIndices (10 : ℝ)).length) ∧
        (stepIndices (10 : ℝ)).length = (pyInt ((10 : ℝ) / timeStep)).toNat) :=
  ⟨by norm_num, step_invocations lonely 10 (by norm_num)⟩

/-- C7 counterexample: at the default end time 10 the driver performs 10000
step invocations, but `end_time/step_size` truncated plus one is 10001. -/
theorem step_count_off_by_one :
    (stepIndices (10 : ℝ)).length = 10000 ∧
      (pyInt ((10 : ℝ) / timeStep)).toNat + 1 = 10001 ∧
      (stepIndices (10 : ℝ)).length ≠ (pyInt ((10 : ℝ) / timeStep)).toNat + 1 := by
  have hfloor : pyInt ((10 : ℝ) / timeStep) = 10000 := by
    rw [pyInt, timeStep]
    rw [show (10 : ℝ) / 0.001 = ((10000 : ℕ) : ℝ) by norm_num]
    rw [if_pos (by norm_num : (0 : ℝ) ≤ ((10000 : ℕ) : ℝ)), Int.floor_natCast]
    norm_num
  have hlen : (stepIndices (10 : ℝ)).length = 10000 := by
    rw [stepIndices, List.length_range', stepCount, timeStep, pyInt]
    rw [show (10 : ℝ) / 0.001 + 1 = ((10001 : ℕ) : ℝ) by norm_num]
    rw [if_pos (by norm_num : (0 : ℝ) ≤ ((10001 : ℕ) : ℝ)), Int.floor_natCast]
    rfl
  refine ⟨hlen, ?_, ?_⟩
  · rw [hfloor]; rfl
  · rw [hlen, hfloor]
    omega

theorem loadLine_skip (toks : List Token) (l : List ℝ)
    (h : parseFloats (toks.drop 1) = some l) (hl : l.length ≠ 7) :
    loadLine toks = Except.ok none := by
  rw [loadLine, h]
  rcases l with _ | ⟨a, _ | ⟨b, _ | ⟨c2, _ | ⟨d, _ | ⟨e, _ | ⟨f, _ | ⟨g, _ | ⟨h8, t⟩⟩⟩⟩⟩⟩⟩⟩ <;>
    first
      | rfl
      | exact (hl (by simp)).elim

theorem loadLine_valueError (toks : List Token) (h : parseFloats (toks.drop 1) = none) :
    loadLine toks = Except.error () := by
  rw [loadLine, h]

/-- C6 (amended): a line whose trailing tokens all parse as floats but do not
number exactly seven yields no particle and no fatal error (the `TypeError`
from the wrong argument count is caught and the loader continues with the
next line); but a line with a trailing token that does not parse as a float
raises an uncaught `ValueError` instead of being skipped. -/
theorem loadLine_behavior :
    (∀ (toks : List Token) (l : List ℝ), parseFloats (toks.drop 1) = some l →
        l.length ≠ 7 → loadLine toks = Except.ok none) ∧
      ∀ toks : List Token, parseFloats (toks.drop 1) = none →
        loadLine toks = Except.error () :=
  ⟨loadLine_skip, loadLine_valueError⟩

/-- Witness for the amended C6: a line with only two (numeric) trailing
tokens is skipped without error. -/
theorem loadLine_behavior_witness :
    loadLine [Token.other, Token.num 1, Token.num 2] = Except.ok none :=
  loadLine_behavior.1 [Token.other, Token.num 1, Token.num 2] [1, 2] rfl (by simp)

/-- C6 counterexample: a line whose single trailing token is non-numeric has
fewer than 7 trailing numeric tokens, yet the loader does not skip it: the
`ValueError` from `float()` is not caught by `except TypeError` and aborts
the run. -/
theorem loadLine_fatal :
    loadLine [Token.other, Token.other] = Except.error () ∧
      loadLine [Token.other, Token.other] ≠ Except.ok none := by
  refine ⟨rfl, ?_⟩
  rw [show loadLine [Token.other, Token.other] = Except.error () from rfl]
  exact fun h => Except.noConfusion h

theorem parseEndTime_missing (argv : List Token) (h : (argv[2]?) = none) :
    parseEndTime argv = Except.ok 10 := by
  rw [parseEndTime, h]

theorem parseEndTime_invalid (argv : List Token) (h : (argv[2]?) = some Token.other) :
    parseEndTime argv = Except.error () := by
  rw [parseEndTime, h]

/-- C8 (amended): a missing end-time argument (`sys.argv[2]` absent) is
caught as `IndexError` and falls back to the default 10.0 with no error
surfaced; a present but unparseable argument instead raises an uncaught
`ValueError` (`float` failures are not caught). -/
theorem parseEndTime_behavior :
    (∀ argv : List Token, (argv[2]?) = none → parseEndTime argv = Except.ok 10) ∧
      ∀ argv : List Token, (argv[2]?) = some Token.other →
        parseEndTime argv = Except.error () :=
  ⟨parseEndTime_missing, parseEndTime_invalid⟩

/-- Witness for the amended C8: with no third argument the default 10.0 is
used and no error is surfaced. -/
theorem parseEndTime_behavior_witness :
    parseEndTime [Token.num 0, Token.num 0] = Except.ok 10 :=
  parseEndTime_behavior.1 [Token.num 0, Token.num 0] rfl

/-- C8 counterexample: an unparseable end-time argument is not recovered to
the default; the program aborts with an uncaught `ValueError`. -/
theorem parseEndTime_fatal :
    parseEndTime [Token.other, Token.other, Token.other] = Except.error () ∧
      parseEndTime [Token.other, Token.other, Token.other] ≠ Except.ok 10 := by
  refine ⟨rfl, ?_⟩
  rw [show parseEndTime [Token.other, Token.other, Token.other] = Except.error () from rfl]
  exact fun h => Except.noConfusion h
